import Mathlib

/-!
Shallow embedding of the puzzle-cube solver (`src/main.rs`): piece geometry
(`Coord`, `Orintaion`), rotation and orientation enumeration, the 64-bit
occupancy `Bitset`, the mutable search state `Placement` modelled by explicit
state passing, and the `Solver` routines `still_possible`, `solve` and
`corner_solve`.  Rust `u64` values are naturals `< 2^64`; every operation used
here (`&&& ||| ^^^`, `1 <<< i` with `i < 64`) keeps that range, and `!x` is
modelled as xor with `2^64 - 1`.
-/

set_option maxHeartbeats 1000000

structure Coord where
  x : Int
  y : Int
  z : Int
deriving DecidableEq, Repr

structure Orintaion where
  blocks : List Coord
deriving DecidableEq, Repr

inductive Direction where
  | Next
  | Clk
  | CClk
deriving DecidableEq, Repr

inductive Color where
  | Red
  | Yellow
  | Blue
  | White
deriving DecidableEq, Repr

/-- Rotation of every block, exactly the three coordinate swaps with sign flip
of `Orintaion::rotate` (`Next`: y ← z, z ← −y; `Clk`: x ← z, z ← −x;
`CClk`: z ← x, x ← −z). -/
def Orintaion.rotate (o : Orintaion) (dir : Direction) : Orintaion :=
  { blocks := o.blocks.map fun block =>
      match dir with
      | Direction.Next => { x := block.x, y := block.z, z := -block.y }
      | Direction.Clk  => { x := block.z, y := block.y, z := -block.x }
      | Direction.CClk => { x := -block.z, y := block.y, z := block.x } }

/-- Minimum of a Rust iterator: `None` on an empty sequence. -/
def minIter : List Int → Option Int
  | [] => none
  | a :: as => some (as.foldl min a)

/-- Normalisation (`Orintaion::normalise`): translate so the per-axis minima
become 0.  The source unwraps the three minima, which panics when `blocks` is
empty; that failure is modelled by `none`. -/
def Orintaion.normalise? (o : Orintaion) : Option Orintaion :=
  match minIter (o.blocks.map Coord.x), minIter (o.blocks.map Coord.y),
      minIter (o.blocks.map Coord.z) with
  | some min_x, some min_y, some min_z =>
      some { blocks := o.blocks.map fun block =>
        { x := block.x - min_x, y := block.y - min_y, z := block.z - min_z } }
  | _, _, _ => none

/-- Total version of `normalise`; it agrees with `normalise?` whenever the
block list is nonempty, which holds at every call site of the traversal. -/
def Orintaion.normalise (o : Orintaion) : Orintaion :=
  (o.normalise?).getD { blocks := [] }

/-- Novelty check (`Orintaion::similar`): count the blocks of `o` that have an
exact match in `other` (the inner `break` makes each block count once), and
compare with the block count of `o`. -/
def Orintaion.similar (o other : Orintaion) : Bool :=
  (o.blocks.filter fun block => other.blocks.any fun other_block =>
    block == other_block).length == o.blocks.length

/-- Push `ori` onto the kept list when no kept orientation is `similar` to it
(the `if orintations.iter().all(|o| !o.similar(&ori))` pattern). -/
def addIfNew (orintations : List Orintaion) (ori : Orintaion) : List Orintaion :=
  if orintations.all fun o => !(o.similar ori) then orintations ++ [ori]
  else orintations

/-- Traversal of `Orintaion::all_orintations`: 6 outer iterations alternating
the spin direction, each with 3 inner spins and one `Next` rotation, every
step normalising and keeping only novel orientations. -/
def Orintaion.all_orintations (o : Orintaion) : List Orintaion :=
  let ori := o.normalise
  let init : List Orintaion × Orintaion × Bool := ([ori], ori, true)
  let result := (List.range 6).foldl (fun st _dir =>
    let (orintations, ori, clk) := st
    let (orintations, ori) := (List.range 3).foldl (fun st2 _rot =>
      let (orintations, ori) := st2
      let ori := (ori.rotate (if clk then Direction.Clk else Direction.CClk)).normalise
      (addIfNew orintations ori, ori)) (orintations, ori)
    let ori := (ori.rotate Direction.Next).normalise
    (addIfNew orintations ori, ori, !clk)) init
  result.1

structure Bitset where
  bits : Nat
deriving DecidableEq, Repr

def Bitset.empty : Bitset := { bits := 0 }

def Bitset.full : Bitset := { bits := 2 ^ 64 - 1 }

def Bitset.and (b other : Bitset) : Bitset := { bits := b.bits &&& other.bits }

def Bitset.or (b other : Bitset) : Bitset := { bits := b.bits ||| other.bits }

def Bitset.xor (b other : Bitset) : Bitset := { bits := b.bits ^^^ other.bits }

def Bitset.not (b : Bitset) : Bitset := { bits := b.bits ^^^ (2 ^ 64 - 1) }

def Bitset.set (b : Bitset) (index : Nat) : Bitset :=
  { bits := b.bits ||| (1 <<< index) }

def Bitset.get (b : Bitset) (index : Nat) : Bool :=
  b.bits &&& (1 <<< index) != 0

def SIZE : Nat := 4

/-- Inner body of `Orintaion::placements` for one translation `(x, y, z)`:
fold over the blocks, failing (`none`, the `valid = false; break` path) as
soon as a translated block leaves the grid, otherwise setting bit
`16·z + 4·y + x` for each block. -/
def placementAt (o : Orintaion) (x y z : Nat) : Option Bitset :=
  o.blocks.foldl (fun acc block =>
    match acc with
    | none => none
    | some bits =>
      let coord : Coord :=
        { x := block.x + (x : Int), y := block.y + (y : Int), z := block.z + (z : Int) }
      if 0 ≤ coord.x ∧ coord.x < (SIZE : Int) ∧ 0 ≤ coord.y ∧ coord.y < (SIZE : Int)
          ∧ 0 ≤ coord.z ∧ coord.z < (SIZE : Int) then
        some (bits.set (16 * coord.z + 4 * coord.y + coord.x).toNat)
      else none) (some Bitset.empty)

/-- Placement precomputation (`Orintaion::placements`): all `SIZE³`
translations in `x`-outer, `z`-inner order, keeping the in-bounds ones. -/
def Orintaion.placements (o : Orintaion) : List Bitset :=
  (List.range SIZE).flatMap fun x =>
    (List.range SIZE).flatMap fun y =>
      (List.range SIZE).filterMap fun z => placementAt o x y z

structure Piece where
  piece_id : Nat
  name : String
  color : Color
  size : Nat
  orintations : List Orintaion
  placements : List Bitset
deriving DecidableEq, Repr

/-- Constructor `Piece::new`.  It calls `all_orintations`, whose first step
`normalise` panics when the orientation has no blocks; the panic is modelled
by `none` (see `Orintaion.normalise?`).  Every later `normalise` of the
traversal acts on a rotation of the input, which is nonempty whenever the
input is, so checking the first call suffices. -/
def Piece.new? (piece_id : Nat) (nm : String) (color : Color)
    (orintaion : Orintaion) : Option Piece :=
  match orintaion.normalise? with
  | none => none
  | some _ =>
    let oris := orintaion.all_orintations
    some { piece_id := piece_id, name := nm, color := color,
           size := orintaion.blocks.length,
           orintations := orintaion.all_orintations,
           placements := oris.flatMap fun ori => ori.placements }

structure Placement where
  occupied : Bitset
  placed : List (Nat × Bitset)
deriving DecidableEq, Repr

def Placement.new : Placement := { occupied := Bitset.empty, placed := [] }

/-- Undo (`Placement::pop`).  `Vec` pushes and pops at its end; the stack top
is modelled as the list head.  The state is returned alongside the popped
value to model the mutation. -/
def Placement.pop (p : Placement) : Option (Nat × Bitset) × Placement :=
  match p.placed with
  | (id, bits) :: rest =>
      (some (id, bits), { occupied := p.occupied.xor bits, placed := rest })
  | [] => (none, p)

def Placement.is_valid (p : Placement) (bits : Bitset) : Bool :=
  (bits.and p.occupied).bits == 0

def Placement.place (p : Placement) (id : Nat) (bits : Bitset) : Placement :=
  { occupied := p.occupied.or bits, placed := (id, bits) :: p.placed }

structure Puzzle where
  name : String
  dim : Coord
  pieces : List Piece
deriving DecidableEq, Repr

/-- Out-of-range indexing `puzzle.pieces[piece_id]` panics in Rust; the
solver lemmas assume valid indices, under which `getD` is exact. -/
def defaultPiece : Piece :=
  { piece_id := 0, name := "", color := Color.Red, size := 0,
    orintations := [], placements := [] }

/-- Pruning check `Solver::still_possible`: the early `return false` and the
per-piece `possible` flag with `break` make the loop an all/any combination. -/
def Solver.still_possible (puzzle : Puzzle) (occ : Bitset)
    (remaining : List Nat) : Bool :=
  remaining.all fun piece_id =>
    (puzzle.pieces.getD piece_id defaultPiece).placements.any fun bits =>
      (occ.and bits).bits == 0

/-- Backtracking search `Solver::solve`, with the mutation turned into state
passing: the source places, recurses, then pops, so the recursive call sees
`placement.place …` and the following iterations see `placement` unchanged
(the pop exactly undoes the place, see `place_pop_roundtrip`).  Each base
case prints the board and bumps `num_solutions`; the list of leaf states
returned here carries both (one report per element). -/
def Solver.solve (puzzle : Puzzle) (placement : Placement)
    (remaining : List Nat) : List Placement :=
  if remaining.isEmpty then [placement]
  else
    remaining.attach.flatMap fun pid =>
      let piece := puzzle.pieces.getD pid.val defaultPiece
      let new_remaining := remaining.filter fun id => id != pid.val
      piece.placements.flatMap fun bits =>
        if placement.is_valid bits &&
            Solver.still_possible puzzle (bits.or placement.occupied) new_remaining then
          Solver.solve puzzle (placement.place piece.piece_id bits) new_remaining
        else []
termination_by remaining.length
decreasing_by
  simp only [List.length_filter_lt_length_iff_exists]
  exact ⟨pid.val, pid.property, by simp⟩

/-- Bitwise union of the bitmasks currently on the placed stack. -/
def orStack (placed : List (Nat × Bitset)) : Nat :=
  placed.foldr (fun pr acc => pr.2.bits ||| acc) 0

/-- States reachable from `Placement::new()` by `place` calls whose bitmask
passes `is_valid` at the time of the call, interleaved with `pop` calls. -/
inductive Reaches : Placement → Prop where
  | new : Reaches Placement.new
  | place {p : Placement} (id : Nat) {bits : Bitset}
      (hv : p.is_valid bits = true) (hp : Reaches p) : Reaches (p.place id bits)
  | pop {p : Placement} (hp : Reaches p) : Reaches (p.pop).2

/-- Integer 3×3 matrix, rows `rx ry rz`, acting on coordinates from the left:
the common value of all composites of the three primitive rotations. -/
structure Rot where
  rx : Coord
  ry : Coord
  rz : Coord
deriving DecidableEq, Repr

def Rot.apply (R : Rot) (c : Coord) : Coord :=
  { x := R.rx.x * c.x + R.rx.y * c.y + R.rx.z * c.z
  , y := R.ry.x * c.x + R.ry.y * c.y + R.ry.z * c.z
  , z := R.rz.x * c.x + R.rz.y * c.y + R.rz.z * c.z }

def Rot.one : Rot :=
  { rx := { x := 1, y := 0, z := 0 }
  , ry := { x := 0, y := 1, z := 0 }
  , rz := { x := 0, y := 0, z := 1 } }

def Rot.mul (A B : Rot) : Rot :=
  { rx := { x := A.rx.x * B.rx.x + A.rx.y * B.ry.x + A.rx.z * B.rz.x
          , y := A.rx.x * B.rx.y + A.rx.y * B.ry.y + A.rx.z * B.rz.y
          , z := A.rx.x * B.rx.z + A.rx.y * B.ry.z + A.rx.z * B.rz.z }
  , ry := { x := A.ry.x * B.rx.x + A.ry.y * B.ry.x + A.ry.z * B.rz.x
          , y := A.ry.x * B.rx.y + A.ry.y * B.ry.y + A.ry.z * B.rz.y
          , z := A.ry.x * B.rx.z + A.ry.y * B.ry.z + A.ry.z * B.rz.z }
  , rz := { x := A.rz.x * B.rx.x + A.rz.y * B.ry.x + A.rz.z * B.rz.x
          , y := A.rz.x * B.rx.y + A.rz.y * B.ry.y + A.rz.z * B.rz.y
          , z := A.rz.x * B.rx.z + A.rz.y * B.ry.z + A.rz.z * B.rz.z } }

/-- Matrix of each primitive rotation of `Orintaion::rotate`. -/
def mat : Direction → Rot
  | Direction.Next =>
      { rx := { x := 1, y := 0, z := 0 }
      , ry := { x := 0, y := 0, z := 1 }
      , rz := { x := 0, y := -1, z := 0 } }
  | Direction.Clk =>
      { rx := { x := 0, y := 0, z := 1 }
      , ry := { x := 0, y := 1, z := 0 }
      , rz := { x := -1, y := 0, z := 0 } }
  | Direction.CClk =>
      { rx := { x := 0, y := 0, z := -1 }
      , ry := { x := 0, y := 1, z := 0 }
      , rz := { x := 1, y := 0, z := 0 } }

/-- Rotation of a whole orientation by a matrix. -/
def mapRot (R : Rot) (o : Orintaion) : Orintaion :=
  { blocks := o.blocks.map R.apply }

/-- Translation of a whole orientation. -/
def translateOri (v : Coord) (o : Orintaion) : Orintaion :=
  { blocks := o.blocks.map fun b => { x := b.x + v.x, y := b.y + v.y, z := b.z + v.z } }

/-- Negated per-axis minima: `normalise` is translation by this vector. -/
def negMin (o : Orintaion) : Coord :=
  { x := -((minIter (o.blocks.map Coord.x)).getD 0)
  , y := -((minIter (o.blocks.map Coord.y)).getD 0)
  , z := -((minIter (o.blocks.map Coord.z)).getD 0) }

/-- Spin directions applied by the traversal of `all_orintations`, in order:
6 outer iterations, each of 3 spins (alternating `Clk`/`CClk`) and one
`Next`. -/
def genSeq : List Direction :=
  [Direction.Clk, Direction.Clk, Direction.Clk, Direction.Next,
   Direction.CClk, Direction.CClk, Direction.CClk, Direction.Next,
   Direction.Clk, Direction.Clk, Direction.Clk, Direction.Next,
   Direction.CClk, Direction.CClk, Direction.CClk, Direction.Next,
   Direction.Clk, Direction.Clk, Direction.Clk, Direction.Next,
   Direction.CClk, Direction.CClk, Direction.CClk, Direction.Next]

/-- One traversal step: rotate the running orientation, normalise, keep if
novel. -/
def stepDir (st : List Orintaion × Orintaion) (d : Direction) : List Orintaion × Orintaion :=
  let ori := (st.2.rotate d).normalise
  (addIfNew st.1 ori, ori)

/-- Successive normalised rotations visited from `ori` along `ds`. -/
def candsFrom (ori : Orintaion) : List Direction → List Orintaion
  | [] => []
  | d :: ds =>
      let ori2 := (ori.rotate d).normalise
      ori2 :: candsFrom ori2 ds

/-- Running products of the generator matrices along a direction list. -/
def wordScan (W : Rot) : List Direction → List Rot
  | [] => []
  | d :: ds =>
      let W2 := (mat d).mul W
      W2 :: wordScan W2 ds

/-- The 25 rotation words visited by the traversal (identity first). -/
def words : List Rot := Rot.one :: wordScan Rot.one genSeq

/-- The distinct rotations visited: this list has 24 elements and is the
proper rotation group of the cube. -/
def rotGroup : List Rot := words.dedup

/-- The 25 word matrices of the traversal, as explicit literals. -/
def wordsList : List Rot :=
  [ { rx := { x := 1, y := 0, z := 0 }, ry := { x := 0, y := 1, z := 0 }, rz := { x := 0, y := 0, z := 1 } }
  , { rx := { x := 0, y := 0, z := 1 }, ry := { x := 0, y := 1, z := 0 }, rz := { x := -1, y := 0, z := 0 } }
  , { rx := { x := -1, y := 0, z := 0 }, ry := { x := 0, y := 1, z := 0 }, rz := { x := 0, y := 0, z := -1 } }
  , { rx := { x := 0, y := 0, z := -1 }, ry := { x := 0, y := 1, z := 0 }, rz := { x := 1, y := 0, z := 0 } }
  , { rx := { x := 0, y := 0, z := -1 }, ry := { x := 1, y := 0, z := 0 }, rz := { x := 0, y := -1, z := 0 } }
  , { rx := { x := 0, y := 1, z := 0 }, ry := { x := 1, y := 0, z := 0 }, rz := { x := 0, y := 0, z := -1 } }
  , { rx := { x := 0, y := 0, z := 1 }, ry := { x := 1, y := 0, z := 0 }, rz := { x := 0, y := 1, z := 0 } }
  , { rx := { x := 0, y := -1, z := 0 }, ry := { x := 1, y := 0, z := 0 }, rz := { x := 0, y := 0, z := 1 } }
  , { rx := { x := 0, y := -1, z := 0 }, ry := { x := 0, y := 0, z := 1 }, rz := { x := -1, y := 0, z := 0 } }
  , { rx := { x := -1, y := 0, z := 0 }, ry := { x := 0, y := 0, z := 1 }, rz := { x := 0, y := 1, z := 0 } }
  , { rx := { x := 0, y := 1, z := 0 }, ry := { x := 0, y := 0, z := 1 }, rz := { x := 1, y := 0, z := 0 } }
  , { rx := { x := 1, y := 0, z := 0 }, ry := { x := 0, y := 0, z := 1 }, rz := { x := 0, y := -1, z := 0 } }
  , { rx := { x := 1, y := 0, z := 0 }, ry := { x := 0, y := -1, z := 0 }, rz := { x := 0, y := 0, z := -1 } }
  , { rx := { x := 0, y := 0, z := 1 }, ry := { x := 0, y := -1, z := 0 }, rz := { x := 1, y := 0, z := 0 } }
  , { rx := { x := -1, y := 0, z := 0 }, ry := { x := 0, y := -1, z := 0 }, rz := { x := 0, y := 0, z := 1 } }
  , { rx := { x := 0, y := 0, z := -1 }, ry := { x := 0, y := -1, z := 0 }, rz := { x := -1, y := 0, z := 0 } }
  , { rx := { x := 0, y := 0, z := -1 }, ry := { x := -1, y := 0, z := 0 }, rz := { x := 0, y := 1, z := 0 } }
  , { rx := { x := 0, y := 1, z := 0 }, ry := { x := -1, y := 0, z := 0 }, rz := { x := 0, y := 0, z := 1 } }
  , { rx := { x := 0, y := 0, z := 1 }, ry := { x := -1, y := 0, z := 0 }, rz := { x := 0, y := -1, z := 0 } }
  , { rx := { x := 0, y := -1, z := 0 }, ry := { x := -1, y := 0, z := 0 }, rz := { x := 0, y := 0, z := -1 } }
  , { rx := { x := 0, y := -1, z := 0 }, ry := { x := 0, y := 0, z := -1 }, rz := { x := 1, y := 0, z := 0 } }
  , { rx := { x := -1, y := 0, z := 0 }, ry := { x := 0, y := 0, z := -1 }, rz := { x := 0, y := -1, z := 0 } }
  , { rx := { x := 0, y := 1, z := 0 }, ry := { x := 0, y := 0, z := -1 }, rz := { x := -1, y := 0, z := 0 } }
  , { rx := { x := 1, y := 0, z := 0 }, ry := { x := 0, y := 0, z := -1 }, rz := { x := 0, y := 1, z := 0 } }
  , { rx := { x := 1, y := 0, z := 0 }, ry := { x := 0, y := 1, z := 0 }, rz := { x := 0, y := 0, z := 1 } } ]

/-- Signed permutation matrix with determinant 1: the standard description of
a proper cube rotation on integer coordinates. -/
def Rot.isProperRotation (R : Rot) : Prop :=
  (R.rx = { x := 1, y := 0, z := 0 } ∨ R.rx = { x := -1, y := 0, z := 0 } ∨
   R.rx = { x := 0, y := 1, z := 0 } ∨ R.rx = { x := 0, y := -1, z := 0 } ∨
   R.rx = { x := 0, y := 0, z := 1 } ∨ R.rx = { x := 0, y := 0, z := -1 }) ∧
  (R.ry = { x := 1, y := 0, z := 0 } ∨ R.ry = { x := -1, y := 0, z := 0 } ∨
   R.ry = { x := 0, y := 1, z := 0 } ∨ R.ry = { x := 0, y := -1, z := 0 } ∨
   R.ry = { x := 0, y := 0, z := 1 } ∨ R.ry = { x := 0, y := 0, z := -1 }) ∧
  (R.rz = { x := 1, y := 0, z := 0 } ∨ R.rz = { x := -1, y := 0, z := 0 } ∨
   R.rz = { x := 0, y := 1, z := 0 } ∨ R.rz = { x := 0, y := -1, z := 0 } ∨
   R.rz = { x := 0, y := 0, z := 1 } ∨ R.rz = { x := 0, y := 0, z := -1 }) ∧
  R.rx.x * R.rx.x + R.rx.y * R.rx.y + R.rx.z * R.rx.z = 1 ∧
  R.ry.x * R.ry.x + R.ry.y * R.ry.y + R.ry.z * R.ry.z = 1 ∧
  R.rz.x * R.rz.x + R.rz.y * R.rz.y + R.rz.z * R.rz.z = 1 ∧
  R.rx.x * R.ry.x + R.rx.y * R.ry.y + R.rx.z * R.ry.z = 0 ∧
  R.rx.x * R.rz.x + R.rx.y * R.rz.y + R.rx.z * R.rz.z = 0 ∧
  R.ry.x * R.rz.x + R.ry.y * R.rz.y + R.ry.z * R.rz.z = 0 ∧
  R.rx.x * (R.ry.y * R.rz.z - R.ry.z * R.rz.y)
    - R.rx.y * (R.ry.x * R.rz.z - R.ry.z * R.rz.x)
    + R.rx.z * (R.ry.x * R.rz.y - R.ry.y * R.rz.x) = 1

instance (R : Rot) : Decidable R.isProperRotation := by
  unfold Rot.isProperRotation
  infer_instance

/-- Coordinate set of an orientation (order and representation ignored). -/
def oriFinset (o : Orintaion) : Finset Coord := o.blocks.toFinset

/-- The collection of orientations of a list, as sets of coordinates. -/
def oriSets (l : List Orintaion) : Finset (Finset Coord) := (l.map oriFinset).toFinset

/-- Shape predicate preserved by the traversal: duplicate-free blocks of a
fixed count. -/
def Good (n : Nat) (o : Orintaion) : Prop := o.blocks.Nodup ∧ o.blocks.length = n

/-- Single unit cube at the origin. -/
def unitCubeOri : Orintaion := { blocks := [{ x := 0, y := 0, z := 0 }] }

def unitCubePiece : Piece :=
  (Piece.new? 0 "unit" Color.White unitCubeOri).getD defaultPiece

/-- Straight line of five blocks: nonempty, but too long for the 4×4×4 grid,
so every placement is out of bounds. -/
def line5 : Orintaion :=
  { blocks := [{ x := 0, y := 0, z := 0 }, { x := 1, y := 0, z := 0 },
               { x := 2, y := 0, z := 0 }, { x := 3, y := 0, z := 0 },
               { x := 4, y := 0, z := 0 }] }

/-- Corner heuristic `Solver::corner_solve`.  `corners.pop()` takes the end of
the `Vec`; the corner stack top is modelled as the list head. -/
def Solver.corner_solve (puzzle : Puzzle) (placement : Placement)
    (corners : List Bitset) (remaining : List Nat) : List Placement :=
  match corners with
  | [] => Solver.solve puzzle placement remaining
  | corner :: new_corners =>
    remaining.flatMap fun piece_id =>
      let piece := puzzle.pieces.getD piece_id defaultPiece
      let new_remaining := remaining.filter fun id => id != piece_id
      piece.placements.flatMap fun bits =>
        if placement.is_valid bits && ((bits.and corner).bits != 0) &&
            Solver.still_possible puzzle (bits.or placement.occupied) new_remaining then
          Solver.corner_solve puzzle (placement.place piece.piece_id bits)
            new_corners new_remaining
        else []

/-- Flat L-tromino, a nonempty duplicate-free sample shape. -/
def L3ori : Orintaion :=
  { blocks := [{ x := 0, y := 0, z := 0 }, { x := 1, y := 0, z := 0 },
               { x := 0, y := 1, z := 0 }] }

/-- Tiny fixture puzzle: one piece whose only placement occupies cell 0. -/
def pz1 : Puzzle :=
  { name := "tiny", dim := { x := 4, y := 4, z := 4 },
    pieces := [{ piece_id := 0, name := "p", color := Color.Red, size := 1,
                 orintations := [], placements := [{ bits := 1 }] }] }

/-! Helper lemmas on natural-number bit operations. -/

theorem and_eq_zero_iff_testBit (a b : Nat) :
    a &&& b = 0 ↔ ∀ i, ¬(a.testBit i = true ∧ b.testBit i = true) := by
  constructor
  · intro h i hi
    have hbit := congrArg (fun n => Nat.testBit n i) h
    simp only [Nat.testBit_and, Nat.zero_testBit, hi.1, hi.2, Bool.and_self] at hbit
    exact absurd hbit (by simp)
  · intro h
    apply Nat.eq_of_testBit_eq
    intro i
    simp only [Nat.testBit_and, Nat.zero_testBit]
    rcases ha : a.testBit i with _ | _
    · simp
    · rcases hb : b.testBit i with _ | _
      · simp
      · exact absurd ⟨ha, hb⟩ (h i)

theorem and_lor_eq_zero_iff (a x y : Nat) :
    a &&& (x ||| y) = 0 ↔ a &&& x = 0 ∧ a &&& y = 0 := by
  simp only [and_eq_zero_iff_testBit, Nat.testBit_or]
  constructor
  · intro h
    constructor
    · intro i hi
      exact h i ⟨hi.1, by simp [hi.2]⟩
    · intro i hi
      exact h i ⟨hi.1, by simp [hi.2]⟩
  · rintro ⟨h1, h2⟩ i ⟨ha, hxy⟩
    rcases Bool.or_eq_true_iff.mp hxy with hx | hy
    · exact h1 i ⟨ha, hx⟩
    · exact h2 i ⟨ha, hy⟩

theorem lor_xor_cancel_right {a b : Nat} (h : b &&& a = 0) : (a ||| b) ^^^ b = a := by
  apply Nat.eq_of_testBit_eq
  intro i
  have hd := (and_eq_zero_iff_testBit b a).mp h i
  simp only [Nat.testBit_xor, Nat.testBit_or]
  rcases hb : b.testBit i with _ | _
  · simp
  · rcases ha : a.testBit i with _ | _
    · simp
    · exact absurd ⟨hb, ha⟩ hd

theorem and_orStack_eq_zero_iff (a : Nat) (l : List (Nat × Bitset)) :
    a &&& orStack l = 0 ↔ ∀ pr ∈ l, a &&& pr.2.bits = 0 := by
  induction l with
  | nil => simp [orStack]
  | cons hd tl ih =>
      simp only [orStack, List.foldr_cons] at ih ⊢
      rw [and_lor_eq_zero_iff]
      simp [ih]

/-- Occupancy invariant together with pairwise disjointness of the stack. -/
theorem reaches_invariant {p : Placement} (h : Reaches p) :
    p.occupied.bits = orStack p.placed ∧
      p.placed.Pairwise (fun pr qr => pr.2.bits &&& qr.2.bits = 0) := by
  induction h with
  | new => simp [Placement.new, Bitset.empty, orStack]
  | place id hv _hp ih =>
      rename_i q bits
      obtain ⟨hocc, hpw⟩ := ih
      have hvbits : bits.bits &&& q.occupied.bits = 0 := by
        have := hv
        simp only [Placement.is_valid, Bitset.and, beq_iff_eq] at this
        exact this
      have hdisj : ∀ pr ∈ q.placed, bits.bits &&& pr.2.bits = 0 := by
        rw [← and_orStack_eq_zero_iff, ← hocc]
        exact hvbits
      constructor
      · simp only [Placement.place, Bitset.or, orStack, List.foldr_cons]
        rw [← orStack, ← hocc, Nat.lor_comm]
      · exact List.Pairwise.cons hdisj hpw
  | pop _hp ih =>
      rename_i q
      obtain ⟨hocc, hpw⟩ := ih
      match hq : q.placed with
      | [] =>
          have hpop : q.pop = (none, q) := by
            simp [Placement.pop, hq]
          rw [hpop]
          exact ⟨hocc, hpw⟩
      | (id, bits) :: rest =>
          have hpop : q.pop = (some (id, bits),
              { occupied := q.occupied.xor bits, placed := rest }) := by
            simp [Placement.pop, hq]
          rw [hpop]
          rw [hq] at hocc hpw
          rw [List.pairwise_cons] at hpw
          obtain ⟨hhd, htl⟩ := hpw
          refine ⟨?_, htl⟩
          have hdisj : bits.bits &&& orStack rest = 0 := by
            rw [and_orStack_eq_zero_iff]
            intro pr hpr
            exact hhd pr hpr
          show (q.occupied.xor bits).bits = orStack rest
          simp only [Bitset.xor]
          rw [hocc]
          simp only [orStack, List.foldr_cons]
          rw [← orStack, Nat.lor_comm]
          exact lor_xor_cancel_right hdisj

/-- C3: in every state reachable from `Placement::new()` by valid `place`
calls interleaved with `pop` calls, the occupied bitmask equals the bitwise
OR of the bitmasks on the placed stack. -/
theorem occupied_eq_union_of_reaches (p : Placement) (h : Reaches p) :
    p.occupied.bits = orStack p.placed :=
  (reaches_invariant h).1

theorem occupied_eq_union_of_reaches_witness :
    ((Placement.new.place 1 { bits := 3 }).place 2 { bits := 12 }).occupied.bits =
      orStack ((Placement.new.place 1 { bits := 3 }).place 2 { bits := 12 }).placed :=
  occupied_eq_union_of_reaches _
    (Reaches.place 2 (by decide) (Reaches.place 1 (by decide) Reaches.new))

/-- C4: placing a bitmask that passes `is_valid` and then popping is a no-op;
the pop returns the pushed pair and the state is restored exactly. -/
theorem place_pop_roundtrip (p : Placement) (id : Nat) (bits : Bitset)
    (hv : p.is_valid bits = true) :
    (p.place id bits).pop = (some (id, bits), p) := by
  have hvbits : bits.bits &&& p.occupied.bits = 0 := by
    simpa only [Placement.is_valid, Bitset.and, beq_iff_eq] using hv
  simp only [Placement.place, Placement.pop]
  have hocc : (p.occupied.or bits).xor bits = p.occupied := by
    simp only [Bitset.or, Bitset.xor]
    congr 1
    exact lor_xor_cancel_right hvbits
  rw [hocc]

theorem place_pop_roundtrip_witness :
    (Placement.new.place 7 { bits := 5 }).pop = (some (7, { bits := 5 }), Placement.new) :=
  place_pop_roundtrip Placement.new 7 { bits := 5 } (by decide)

/-- C9: `is_valid` returns false exactly when the bitmask shares at least one
set bit with the current occupancy, and true exactly when it shares none. -/
theorem is_valid_shares_no_bit (p : Placement) (bits : Bitset) :
    (p.is_valid bits = false ↔
      ∃ i, bits.bits.testBit i = true ∧ p.occupied.bits.testBit i = true) ∧
    (p.is_valid bits = true ↔
      ∀ i, ¬(bits.bits.testBit i = true ∧ p.occupied.bits.testBit i = true)) := by
  have hiff : p.is_valid bits = true ↔
      ∀ i, ¬(bits.bits.testBit i = true ∧ p.occupied.bits.testBit i = true) := by
    simp only [Placement.is_valid, Bitset.and, beq_iff_eq]
    exact and_eq_zero_iff_testBit bits.bits p.occupied.bits
  constructor
  · rw [Bool.eq_false_iff, Ne, hiff]
    push_neg
    exact Iff.rfl
  · exact hiff

/-- C10: popping an empty placed stack returns `None` and leaves the state
unchanged. -/
theorem pop_empty_stack (p : Placement) (h : p.placed = []) :
    p.pop = (none, p) := by
  simp [Placement.pop, h]

theorem pop_empty_stack_witness : Placement.new.pop = (none, Placement.new) :=
  pop_empty_stack Placement.new rfl

/-- C5: `still_possible` is false exactly when some remaining piece (a valid
index into the pieces list) has no placement bitmask disjoint from the given
occupancy, and true exactly when every remaining piece has one.  Under the
index hypothesis the `getD` lookup is the source's `pieces[piece_id]`. -/
theorem still_possible_iff (puzzle : Puzzle) (occ : Bitset) (remaining : List Nat)
    (hidx : ∀ pid ∈ remaining, pid < puzzle.pieces.length) :
    (Solver.still_possible puzzle occ remaining = false ↔
       ∃ pid, ∃ hmem : pid ∈ remaining,
         ∀ bits ∈ (puzzle.pieces.get ⟨pid, hidx pid hmem⟩).placements,
           (occ.and bits).bits ≠ 0) ∧
    (Solver.still_possible puzzle occ remaining = true ↔
       ∀ pid, ∀ hmem : pid ∈ remaining,
         ∃ bits ∈ (puzzle.pieces.get ⟨pid, hidx pid hmem⟩).placements,
           (occ.and bits).bits = 0) := by
  have hgetD : ∀ pid (hmem : pid ∈ remaining),
      puzzle.pieces.getD pid defaultPiece = puzzle.pieces.get ⟨pid, hidx pid hmem⟩ := by
    intro pid hmem
    rw [List.getD_eq_getElem?_getD, List.getElem?_eq_getElem (hidx pid hmem)]
    simp
  have htrue : Solver.still_possible puzzle occ remaining = true ↔
      ∀ pid, ∀ hmem : pid ∈ remaining,
        ∃ bits ∈ (puzzle.pieces.get ⟨pid, hidx pid hmem⟩).placements,
          (occ.and bits).bits = 0 := by
    simp only [Solver.still_possible, List.all_eq_true, List.any_eq_true, beq_iff_eq]
    constructor
    · intro h pid hmem
      obtain ⟨bits, hb, he⟩ := h pid hmem
      exact ⟨bits, by rwa [← hgetD pid hmem], he⟩
    · intro h pid hmem
      obtain ⟨bits, hb, he⟩ := h pid hmem
      exact ⟨bits, by rwa [hgetD pid hmem], he⟩
  refine ⟨?_, htrue⟩
  rw [Bool.eq_false_iff, Ne, htrue]
  push_neg
  constructor
  · rintro ⟨pid, hmem, hall⟩
    exact ⟨pid, hmem, fun bits hb => hall bits hb⟩
  · rintro ⟨pid, hmem, hall⟩
    exact ⟨pid, hmem, fun bits hb => hall bits hb⟩

theorem still_possible_iff_witness :
    Solver.still_possible pz1 { bits := 1 } [0] = false :=
  (still_possible_iff pz1 { bits := 1 } [0] (by decide)).1.mpr
    ⟨0, by decide, by decide⟩

/-- C6: with an empty corner list, `corner_solve` delegates to `solve` with
the same puzzle, placement and remaining list, so it produces the same
recursion, the same reported solutions and the same final count. -/
theorem corner_solve_nil_eq_solve (puzzle : Puzzle) (placement : Placement)
    (remaining : List Nat) :
    Solver.corner_solve puzzle placement [] remaining =
      Solver.solve puzzle placement remaining := by
  rw [Solver.corner_solve]

/-- C7 counterexample: constructing a `Piece` from a zero-block `Orintaion`
does not complete normally; the first `normalise` of `all_orintations`
unwraps the minimum of an empty iterator and fails. -/
theorem piece_new_zero_blocks_counterexample :
    Piece.new? 1 "empty" Color.Red { blocks := [] } = none := by decide

/-- C7 amended: a zero-block `Orintaion` makes `Piece::new` fail (panic in
`normalise`); a nonempty `Orintaion` whose every placement is out of bounds
degrades gracefully instead, yielding a piece with an empty placements list
that is handled by feasibility pruning. -/
theorem piece_new_zero_blocks_amended :
    Piece.new? 1 "empty" Color.Red { blocks := [] } = none ∧
    (Piece.new? 0 "line" Color.White line5).isSome = true ∧
    ((Piece.new? 0 "line" Color.White line5).getD defaultPiece).placements = [] := by
  decide

/-- C8: for the unit-cube piece (one block at the origin) the precomputed
placements list has exactly one bitmask per grid cell — 64 entries — and the
placement for translation `(x, y, z)` is the single bit `z·16 + y·4 + x`. -/
theorem unit_cube_placements :
    (Piece.new? 0 "unit" Color.White unitCubeOri).isSome = true ∧
    unitCubePiece.placements.length = 64 ∧
    ∀ x y z : Fin 4,
      (unitCubePiece.placements.getD (16 * x.val + 4 * y.val + z.val) Bitset.empty).bits
        = 1 <<< (16 * z.val + 4 * y.val + x.val) := by
  decide

/-! Matrix algebra for the rotation words of the traversal. -/

theorem Rot.apply_one (c : Coord) : Rot.one.apply c = c := by
  cases c
  simp only [Rot.apply, Rot.one, Coord.mk.injEq]
  refine ⟨by ring, by ring, by ring⟩

theorem Rot.apply_mul (A B : Rot) (c : Coord) :
    (A.mul B).apply c = A.apply (B.apply c) := by
  cases c
  simp only [Rot.apply, Rot.mul, Coord.mk.injEq]
  refine ⟨by ring, by ring, by ring⟩

theorem mapRot_one (o : Orintaion) : mapRot Rot.one o = o := by
  have h : Rot.one.apply = id := funext fun c => Rot.apply_one c
  cases o
  simp [mapRot, h]

theorem mapRot_mul (A B : Rot) (o : Orintaion) :
    mapRot (A.mul B) o = mapRot A (mapRot B o) := by
  cases o
  simp only [mapRot, List.map_map, Orintaion.mk.injEq]
  exact List.map_congr_left fun b _ => Rot.apply_mul A B b

theorem rotate_eq_mapRot (o : Orintaion) (d : Direction) :
    o.rotate d = mapRot (mat d) o := by
  cases o
  cases d <;>
    simp only [Orintaion.rotate, mapRot, mat, Orintaion.mk.injEq] <;>
    refine List.map_congr_left fun b _ => ?_ <;>
    simp only [Rot.apply, Coord.mk.injEq] <;>
    refine ⟨by ring, by ring, by ring⟩

theorem mapRot_translate (R : Rot) (v : Coord) (o : Orintaion) :
    mapRot R (translateOri v o) = translateOri (R.apply v) (mapRot R o) := by
  cases o
  simp only [mapRot, translateOri, List.map_map, Orintaion.mk.injEq]
  refine List.map_congr_left fun b _ => ?_
  simp only [Function.comp_apply, Rot.apply, Coord.mk.injEq]
  refine ⟨by ring, by ring, by ring⟩

theorem apply_inj_of_left_inv {V T : Rot} (h : T.mul V = Rot.one) :
    Function.Injective V.apply := by
  intro a b hab
  have h1 : (T.mul V).apply a = (T.mul V).apply b := by
    rw [Rot.apply_mul, Rot.apply_mul, hab]
  rwa [h, Rot.apply_one, Rot.apply_one] at h1

/-! Normalisation as translation. -/

theorem foldl_min_add (l : List Int) (a c : Int) :
    (l.map fun t => t + c).foldl min (a + c) = l.foldl min a + c := by
  induction l generalizing a with
  | nil => rfl
  | cons hd tl ih =>
      simp only [List.map_cons, List.foldl_cons]
      have hmin : min (a + c) (hd + c) = min a hd + c := by omega
      rw [hmin, ih]

theorem foldl_min_blocks (bs : List Coord) (g : Coord → Int) (b : Coord) (c : Int) :
    (bs.map fun blk => g blk + c).foldl min (g b + c) = (bs.map g).foldl min (g b) + c := by
  have hmm : (bs.map fun blk => g blk + c) = (bs.map g).map fun t => t + c := by
    rw [List.map_map]
    rfl
  rw [hmm]
  exact foldl_min_add (bs.map g) (g b) c

theorem normalise_eq_translateOri (o : Orintaion) (h : o.blocks ≠ []) :
    o.normalise = translateOri (negMin o) o := by
  obtain ⟨blocks⟩ := o
  cases blocks with
  | nil => exact absurd rfl h
  | cons b bs =>
      simp only [Orintaion.normalise, Orintaion.normalise?, minIter, List.map_cons,
        Option.getD_some, translateOri, negMin, Orintaion.mk.injEq, List.cons.injEq]
      constructor
      · simp only [Coord.mk.injEq]
        refine ⟨by ring, by ring, by ring⟩
      · refine List.map_congr_left fun blk _ => ?_
        simp only [Coord.mk.injEq]
        refine ⟨by ring, by ring, by ring⟩

theorem negMin_translateOri (v b : Coord) (bs : List Coord) :
    negMin (translateOri v { blocks := b :: bs }) =
      { x := (negMin { blocks := b :: bs }).x - v.x
      , y := (negMin { blocks := b :: bs }).y - v.y
      , z := (negMin { blocks := b :: bs }).z - v.z } := by
  simp only [negMin, translateOri, List.map_cons, List.map_map, minIter, Option.getD_some,
    Coord.mk.injEq]
  have hx : (Coord.x ∘ fun b : Coord =>
      ({ x := b.x + v.x, y := b.y + v.y, z := b.z + v.z } : Coord)) =
      fun blk : Coord => blk.x + v.x := funext fun blk => rfl
  have hy : (Coord.y ∘ fun b : Coord =>
      ({ x := b.x + v.x, y := b.y + v.y, z := b.z + v.z } : Coord)) =
      fun blk : Coord => blk.y + v.y := funext fun blk => rfl
  have hz : (Coord.z ∘ fun b : Coord =>
      ({ x := b.x + v.x, y := b.y + v.y, z := b.z + v.z } : Coord)) =
      fun blk : Coord => blk.z + v.z := funext fun blk => rfl
  rw [hx, hy, hz, foldl_min_blocks bs Coord.x b v.x, foldl_min_blocks bs Coord.y b v.y,
      foldl_min_blocks bs Coord.z b v.z]
  refine ⟨by ring, by ring, by ring⟩

theorem normalise_translateOri (v : Coord) (o : Orintaion) (h : o.blocks ≠ []) :
    (translateOri v o).normalise = o.normalise := by
  obtain ⟨blocks⟩ := o
  cases blocks with
  | nil => exact absurd rfl h
  | cons b bs =>
      have htr : (translateOri v { blocks := b :: bs }).blocks ≠ [] := by
        simp [translateOri]
      have hbs : (Orintaion.mk (b :: bs)).blocks ≠ [] := by simp
      rw [normalise_eq_translateOri _ htr, normalise_eq_translateOri _ hbs,
        negMin_translateOri]
      simp only [translateOri, List.map_map, Orintaion.mk.injEq]
      refine List.map_congr_left fun blk _ => ?_
      simp only [Function.comp_apply, Coord.mk.injEq]
      refine ⟨by ring, by ring, by ring⟩

theorem blocks_ne_nil_mapRot {o : Orintaion} (h : o.blocks ≠ []) (R : Rot) :
    (mapRot R o).blocks ≠ [] := by
  cases o with
  | mk blocks =>
      simp only [mapRot, ne_eq, List.map_eq_nil_iff]
      exact h

theorem blocks_ne_nil_translateOri {o : Orintaion} (h : o.blocks ≠ []) (v : Coord) :
    (translateOri v o).blocks ≠ [] := by
  cases o with
  | mk blocks =>
      simp only [translateOri, ne_eq, List.map_eq_nil_iff]
      exact h

theorem blocks_ne_nil_normalise {o : Orintaion} (h : o.blocks ≠ []) :
    o.normalise.blocks ≠ [] := by
  rw [normalise_eq_translateOri o h]
  exact blocks_ne_nil_translateOri h _

theorem normalise_normalise (o : Orintaion) (h : o.blocks ≠ []) :
    o.normalise.normalise = o.normalise := by
  conv_lhs => rw [normalise_eq_translateOri o h]
  exact normalise_translateOri _ o h

theorem rotate_normalise_step (W : Rot) (d : Direction) (o : Orintaion)
    (h : o.blocks ≠ []) :
    ((mapRot W o).normalise.rotate d).normalise = (mapRot ((mat d).mul W) o).normalise := by
  have hW : (mapRot W o).blocks ≠ [] := blocks_ne_nil_mapRot h W
  rw [normalise_eq_translateOri _ hW, rotate_eq_mapRot, mapRot_translate,
    normalise_translateOri _ _ (blocks_ne_nil_mapRot hW (mat d)), ← mapRot_mul]

/-! The traversal as a fold over the generator sequence. -/

theorem all_orintations_eq_foldl (o : Orintaion) :
    o.all_orintations = (genSeq.foldl stepDir (([o.normalise], o.normalise))).1 := by
  have h6 : List.range 6 = [0, 1, 2, 3, 4, 5] := by decide
  have h3 : List.range 3 = [0, 1, 2] := by decide
  simp only [Orintaion.all_orintations, h6, h3, genSeq, List.foldl_cons, List.foldl_nil,
    stepDir, Bool.not_true, Bool.not_false, Bool.false_eq_true, Bool.true_eq_false,
    if_true, if_false]

theorem foldl_stepDir_eq (ds : List Direction) :
    ∀ (os : List Orintaion) (ori : Orintaion),
      (ds.foldl stepDir (os, ori)).1 = (candsFrom ori ds).foldl addIfNew os := by
  induction ds with
  | nil => intro os ori; rfl
  | cons d ds ih =>
      intro os ori
      simp only [List.foldl_cons, candsFrom, stepDir]
      exact ih _ _

theorem candsFrom_wordScan (o : Orintaion) (h : o.blocks ≠ []) :
    ∀ (ds : List Direction) (W : Rot),
      candsFrom (mapRot W o).normalise ds =
        (wordScan W ds).map fun V => (mapRot V o).normalise := by
  intro ds
  induction ds with
  | nil => intro W; rfl
  | cons d ds ih =>
      intro W
      simp only [candsFrom, wordScan, List.map_cons]
      rw [rotate_normalise_step W d o h]
      rw [ih ((mat d).mul W)]

theorem all_orintations_eq_addIfNew (o : Orintaion) (h : o.blocks ≠ []) :
    o.all_orintations = (words.map fun V => (mapRot V o).normalise).foldl addIfNew [] := by
  rw [all_orintations_eq_foldl, foldl_stepDir_eq]
  have h1 : o.normalise = (mapRot Rot.one o).normalise := by rw [mapRot_one]
  rw [h1, candsFrom_wordScan o h genSeq Rot.one]
  simp only [words, List.map_cons, List.foldl_cons]
  have h2 : addIfNew [] (mapRot Rot.one o).normalise = [(mapRot Rot.one o).normalise] := by
    simp [addIfNew]
  rw [h2]

/-! Characterisation of the novelty check on duplicate-free shapes. -/

theorem similar_iff_subset (a b : Orintaion) :
    a.similar b = true ↔ ∀ c ∈ a.blocks, c ∈ b.blocks := by
  simp only [Orintaion.similar, beq_iff_eq, List.filter_length_eq_length,
    List.any_eq_true, beq_iff_eq]
  constructor
  · intro h c hc
    obtain ⟨ob, hob, hce⟩ := h c hc
    rw [hce]; exact hob
  · intro h c hc
    exact ⟨c, h c hc, rfl⟩

theorem similar_iff_finset_eq {n : Nat} {a b : Orintaion} (ha : Good n a) (hb : Good n b) :
    a.similar b = true ↔ oriFinset a = oriFinset b := by
  rw [similar_iff_subset]
  constructor
  · intro hsub
    apply Finset.eq_of_subset_of_card_le
    · intro c hc
      simp only [oriFinset, List.mem_toFinset] at hc ⊢
      exact hsub c hc
    · have h1 : (oriFinset b).card = n := by
        rw [oriFinset, List.toFinset_card_of_nodup hb.1, hb.2]
      have h2 : (oriFinset a).card = n := by
        rw [oriFinset, List.toFinset_card_of_nodup ha.1, ha.2]
      rw [h1, h2]
  · intro heq c hc
    have h1 : c ∈ oriFinset a := by
      simp only [oriFinset, List.mem_toFinset]
      exact hc
    rw [heq] at h1
    simpa only [oriFinset, List.mem_toFinset] using h1

/-! Goodness is preserved by rotations, translations and normalisation. -/

theorem translate_coord_injective (v : Coord) :
    Function.Injective fun b : Coord =>
      ({ x := b.x + v.x, y := b.y + v.y, z := b.z + v.z } : Coord) := by
  intro a b h
  cases a
  cases b
  simp only [Coord.mk.injEq] at h ⊢
  omega

theorem good_mapRot {n : Nat} {o : Orintaion} (hg : Good n o) {V : Rot}
    (hinj : Function.Injective V.apply) : Good n (mapRot V o) := by
  refine ⟨?_, ?_⟩
  · exact hg.1.map hinj
  · simp [mapRot, hg.2]

theorem good_translateOri {n : Nat} {o : Orintaion} (hg : Good n o) (v : Coord) :
    Good n (translateOri v o) := by
  refine ⟨?_, ?_⟩
  · exact hg.1.map (translate_coord_injective v)
  · simp [translateOri, hg.2]

theorem good_normalise {n : Nat} {o : Orintaion} (h : o.blocks ≠ []) (hg : Good n o) :
    Good n o.normalise := by
  rw [normalise_eq_translateOri o h]
  exact good_translateOri hg _

theorem wordStep1 :
    (mat Direction.Clk).mul { rx := { x := 1, y := 0, z := 0 }, ry := { x := 0, y := 1, z := 0 }, rz := { x := 0, y := 0, z := 1 } } =
      { rx := { x := 0, y := 0, z := 1 }, ry := { x := 0, y := 1, z := 0 }, rz := { x := -1, y := 0, z := 0 } } := by decide

theorem wordStep2 :
    (mat Direction.Clk).mul { rx := { x := 0, y := 0, z := 1 }, ry := { x := 0, y := 1, z := 0 }, rz := { x := -1, y := 0, z := 0 } } =
      { rx := { x := -1, y := 0, z := 0 }, ry := { x := 0, y := 1, z := 0 }, rz := { x := 0, y := 0, z := -1 } } := by decide

theorem wordStep3 :
    (mat Direction.Clk).mul { rx := { x := -1, y := 0, z := 0 }, ry := { x := 0, y := 1, z := 0 }, rz := { x := 0, y := 0, z := -1 } } =
      { rx := { x := 0, y := 0, z := -1 }, ry := { x := 0, y := 1, z := 0 }, rz := { x := 1, y := 0, z := 0 } } := by decide

theorem wordStep4 :
    (mat Direction.Next).mul { rx := { x := 0, y := 0, z := -1 }, ry := { x := 0, y := 1, z := 0 }, rz := { x := 1, y := 0, z := 0 } } =
      { rx := { x := 0, y := 0, z := -1 }, ry := { x := 1, y := 0, z := 0 }, rz := { x := 0, y := -1, z := 0 } } := by decide

theorem wordStep5 :
    (mat Direction.CClk).mul { rx := { x := 0, y := 0, z := -1 }, ry := { x := 1, y := 0, z := 0 }, rz := { x := 0, y := -1, z := 0 } } =
      { rx := { x := 0, y := 1, z := 0 }, ry := { x := 1, y := 0, z := 0 }, rz := { x := 0, y := 0, z := -1 } } := by decide

theorem wordStep6 :
    (mat Direction.CClk).mul { rx := { x := 0, y := 1, z := 0 }, ry := { x := 1, y := 0, z := 0 }, rz := { x := 0, y := 0, z := -1 } } =
      { rx := { x := 0, y := 0, z := 1 }, ry := { x := 1, y := 0, z := 0 }, rz := { x := 0, y := 1, z := 0 } } := by decide

theorem wordStep7 :
    (mat Direction.CClk).mul { rx := { x := 0, y := 0, z := 1 }, ry := { x := 1, y := 0, z := 0 }, rz := { x := 0, y := 1, z := 0 } } =
      { rx := { x := 0, y := -1, z := 0 }, ry := { x := 1, y := 0, z := 0 }, rz := { x := 0, y := 0, z := 1 } } := by decide

theorem wordStep8 :
    (mat Direction.Next).mul { rx := { x := 0, y := -1, z := 0 }, ry := { x := 1, y := 0, z := 0 }, rz := { x := 0, y := 0, z := 1 } } =
      { rx := { x := 0, y := -1, z := 0 }, ry := { x := 0, y := 0, z := 1 }, rz := { x := -1, y := 0, z := 0 } } := by decide

theorem wordStep9 :
    (mat Direction.Clk).mul { rx := { x := 0, y := -1, z := 0 }, ry := { x := 0, y := 0, z := 1 }, rz := { x := -1, y := 0, z := 0 } } =
      { rx := { x := -1, y := 0, z := 0 }, ry := { x := 0, y := 0, z := 1 }, rz := { x := 0, y := 1, z := 0 } } := by decide

theorem wordStep10 :
    (mat Direction.Clk).mul { rx := { x := -1, y := 0, z := 0 }, ry := { x := 0, y := 0, z := 1 }, rz := { x := 0, y := 1, z := 0 } } =
      { rx := { x := 0, y := 1, z := 0 }, ry := { x := 0, y := 0, z := 1 }, rz := { x := 1, y := 0, z := 0 } } := by decide

theorem wordStep11 :
    (mat Direction.Clk).mul { rx := { x := 0, y := 1, z := 0 }, ry := { x := 0, y := 0, z := 1 }, rz := { x := 1, y := 0, z := 0 } } =
      { rx := { x := 1, y := 0, z := 0 }, ry := { x := 0, y := 0, z := 1 }, rz := { x := 0, y := -1, z := 0 } } := by decide

theorem wordStep12 :
    (mat Direction.Next).mul { rx := { x := 1, y := 0, z := 0 }, ry := { x := 0, y := 0, z := 1 }, rz := { x := 0, y := -1, z := 0 } } =
      { rx := { x := 1, y := 0, z := 0 }, ry := { x := 0, y := -1, z := 0 }, rz := { x := 0, y := 0, z := -1 } } := by decide

theorem wordStep13 :
    (mat Direction.CClk).mul { rx := { x := 1, y := 0, z := 0 }, ry := { x := 0, y := -1, z := 0 }, rz := { x := 0, y := 0, z := -1 } } =
      { rx := { x := 0, y := 0, z := 1 }, ry := { x := 0, y := -1, z := 0 }, rz := { x := 1, y := 0, z := 0 } } := by decide

theorem wordStep14 :
    (mat Direction.CClk).mul { rx := { x := 0, y := 0, z := 1 }, ry := { x := 0, y := -1, z := 0 }, rz := { x := 1, y := 0, z := 0 } } =
      { rx := { x := -1, y := 0, z := 0 }, ry := { x := 0, y := -1, z := 0 }, rz := { x := 0, y := 0, z := 1 } } := by decide

theorem wordStep15 :
    (mat Direction.CClk).mul { rx := { x := -1, y := 0, z := 0 }, ry := { x := 0, y := -1, z := 0 }, rz := { x := 0, y := 0, z := 1 } } =
      { rx := { x := 0, y := 0, z := -1 }, ry := { x := 0, y := -1, z := 0 }, rz := { x := -1, y := 0, z := 0 } } := by decide

theorem wordStep16 :
    (mat Direction.Next).mul { rx := { x := 0, y := 0, z := -1 }, ry := { x := 0, y := -1, z := 0 }, rz := { x := -1, y := 0, z := 0 } } =
      { rx := { x := 0, y := 0, z := -1 }, ry := { x := -1, y := 0, z := 0 }, rz := { x := 0, y := 1, z := 0 } } := by decide

theorem wordStep17 :
    (mat Direction.Clk).mul { rx := { x := 0, y := 0, z := -1 }, ry := { x := -1, y := 0, z := 0 }, rz := { x := 0, y := 1, z := 0 } } =
      { rx := { x := 0, y := 1, z := 0 }, ry := { x := -1, y := 0, z := 0 }, rz := { x := 0, y := 0, z := 1 } } := by decide

theorem wordStep18 :
    (mat Direction.Clk).mul { rx := { x := 0, y := 1, z := 0 }, ry := { x := -1, y := 0, z := 0 }, rz := { x := 0, y := 0, z := 1 } } =
      { rx := { x := 0, y := 0, z := 1 }, ry := { x := -1, y := 0, z := 0 }, rz := { x := 0, y := -1, z := 0 } } := by decide

theorem wordStep19 :
    (mat Direction.Clk).mul { rx := { x := 0, y := 0, z := 1 }, ry := { x := -1, y := 0, z := 0 }, rz := { x := 0, y := -1, z := 0 } } =
      { rx := { x := 0, y := -1, z := 0 }, ry := { x := -1, y := 0, z := 0 }, rz := { x := 0, y := 0, z := -1 } } := by decide

theorem wordStep20 :
    (mat Direction.Next).mul { rx := { x := 0, y := -1, z := 0 }, ry := { x := -1, y := 0, z := 0 }, rz := { x := 0, y := 0, z := -1 } } =
      { rx := { x := 0, y := -1, z := 0 }, ry := { x := 0, y := 0, z := -1 }, rz := { x := 1, y := 0, z := 0 } } := by decide

theorem wordStep21 :
    (mat Direction.CClk).mul { rx := { x := 0, y := -1, z := 0 }, ry := { x := 0, y := 0, z := -1 }, rz := { x := 1, y := 0, z := 0 } } =
      { rx := { x := -1, y := 0, z := 0 }, ry := { x := 0, y := 0, z := -1 }, rz := { x := 0, y := -1, z := 0 } } := by decide

theorem wordStep22 :
    (mat Direction.CClk).mul { rx := { x := -1, y := 0, z := 0 }, ry := { x := 0, y := 0, z := -1 }, rz := { x := 0, y := -1, z := 0 } } =
      { rx := { x := 0, y := 1, z := 0 }, ry := { x := 0, y := 0, z := -1 }, rz := { x := -1, y := 0, z := 0 } } := by decide

theorem wordStep23 :
    (mat Direction.CClk).mul { rx := { x := 0, y := 1, z := 0 }, ry := { x := 0, y := 0, z := -1 }, rz := { x := -1, y := 0, z := 0 } } =
      { rx := { x := 1, y := 0, z := 0 }, ry := { x := 0, y := 0, z := -1 }, rz := { x := 0, y := 1, z := 0 } } := by decide

theorem wordStep24 :
    (mat Direction.Next).mul { rx := { x := 1, y := 0, z := 0 }, ry := { x := 0, y := 0, z := -1 }, rz := { x := 0, y := 1, z := 0 } } =
      { rx := { x := 1, y := 0, z := 0 }, ry := { x := 0, y := 1, z := 0 }, rz := { x := 0, y := 0, z := 1 } } := by decide

theorem words_eq_wordsList : words = wordsList := by
  simp only [words, genSeq, wordScan, wordsList, Rot.one,
    wordStep1, wordStep2, wordStep3, wordStep4, wordStep5, wordStep6, wordStep7, wordStep8, wordStep9, wordStep10, wordStep11, wordStep12, wordStep13, wordStep14, wordStep15, wordStep16, wordStep17, wordStep18, wordStep19, wordStep20, wordStep21, wordStep22, wordStep23, wordStep24]

theorem wordsList_left_inv : ∀ V ∈ wordsList, ∃ T ∈ wordsList, T.mul V = Rot.one := by
  decide

theorem words_left_inv : ∀ V ∈ words, ∃ T ∈ words, T.mul V = Rot.one := by
  rw [words_eq_wordsList]
  exact wordsList_left_inv

theorem good_word_normalise {n : Nat} {o : Orintaion} (h : o.blocks ≠ []) (hg : Good n o)
    {V : Rot} (hV : V ∈ words) : Good n (mapRot V o).normalise := by
  obtain ⟨T, _, hT⟩ := words_left_inv V hV
  exact good_normalise (blocks_ne_nil_mapRot h V) (good_mapRot hg (apply_inj_of_left_inv hT))

theorem toFinset_map_eq_image {α β : Type} [DecidableEq α] [DecidableEq β]
    (g : α → β) (l : List α) : (l.map g).toFinset = l.toFinset.image g := by
  induction l with
  | nil => simp
  | cons a l ih => simp [ih]

theorem addIfNew_cases (os : List Orintaion) (c : Orintaion) :
    (addIfNew os c = os ++ [c] ∧ ∀ o ∈ os, o.similar c = false) ∨
      (addIfNew os c = os ∧ ∃ o ∈ os, o.similar c = true) := by
  rw [addIfNew]
  split
  · rename_i hcond
    left
    refine ⟨rfl, fun o ho => ?_⟩
    have h1 := List.all_eq_true.mp hcond o ho
    simpa using h1
  · rename_i hcond
    right
    refine ⟨rfl, ?_⟩
    rw [List.all_eq_true] at hcond
    push_neg at hcond
    obtain ⟨o, ho, hno⟩ := hcond
    exact ⟨o, ho, by simpa using hno⟩

/-- Behaviour of the novelty-filtered fold: the kept list has pairwise
distinct coordinate sets, represents exactly the coordinate sets of the
candidates, consists of candidates, and never shrinks. -/
theorem foldl_addIfNew_spec {n : Nat} :
    ∀ (cs os : List Orintaion),
      (∀ c ∈ cs, Good n c) → (∀ o ∈ os, Good n o) →
      (os.map oriFinset).Nodup →
      ((cs.foldl addIfNew os).map oriFinset).Nodup ∧
        ((cs.foldl addIfNew os).map oriFinset).toFinset =
          ((os ++ cs).map oriFinset).toFinset ∧
        (∀ x ∈ cs.foldl addIfNew os, x ∈ os ∨ x ∈ cs) ∧
        os.length ≤ (cs.foldl addIfNew os).length := by
  intro cs
  induction cs with
  | nil =>
      intro os _ _ hnd
      exact ⟨hnd, by simp, fun x hx => Or.inl hx, Nat.le_refl _⟩
  | cons c cs ih =>
      intro os hcs hos hnd
      have hcG : Good n c := hcs c (List.mem_cons_self c cs)
      have hcs' : ∀ x ∈ cs, Good n x := fun x hx => hcs x (List.mem_cons_of_mem c hx)
      simp only [List.foldl_cons]
      rcases addIfNew_cases os c with ⟨heq, hall⟩ | ⟨heq, hex⟩
      · have hcnot : oriFinset c ∉ os.map oriFinset := by
          intro hmem
          obtain ⟨o, ho, hfin⟩ := List.mem_map.mp hmem
          have hsim := (similar_iff_finset_eq (hos o ho) hcG).mpr hfin
          rw [hall o ho] at hsim
          exact Bool.false_ne_true hsim
        have hos' : ∀ x ∈ os ++ [c], Good n x := by
          intro x hx
          rcases List.mem_append.mp hx with hx | hx
          · exact hos x hx
          · rw [List.mem_singleton.mp hx]
            exact hcG
        have hnd' : ((os ++ [c]).map oriFinset).Nodup := by
          rw [List.map_append, List.nodup_append]
          refine ⟨hnd, by simp, ?_⟩
          intro s hs hs'
          simp only [List.map_cons, List.map_nil, List.mem_singleton] at hs'
          rw [hs'] at hs
          exact hcnot hs
        have hres := ih (os ++ [c]) hcs' hos' hnd'
        rw [heq]
        refine ⟨hres.1, ?_, ?_, ?_⟩
        · rw [hres.2.1, List.append_assoc, List.singleton_append]
        · intro x hx
          rcases hres.2.2.1 x hx with hx1 | hx1
          · rcases List.mem_append.mp hx1 with h2 | h2
            · exact Or.inl h2
            · right
              rw [List.mem_singleton.mp h2]
              exact List.mem_cons_self c cs
          · right
            exact List.mem_cons_of_mem c hx1
        · have h1 : os.length ≤ (os ++ [c]).length := by simp
          exact Nat.le_trans h1 hres.2.2.2
      · have hres := ih os hcs' hos hnd
        rw [heq]
        obtain ⟨o, ho, hsim⟩ := hex
        have hfin : oriFinset o = oriFinset c := (similar_iff_finset_eq (hos o ho) hcG).mp hsim
        refine ⟨hres.1, ?_, ?_, hres.2.2.2⟩
        · rw [hres.2.1]
          apply Finset.ext
          intro s
          simp only [List.mem_toFinset, List.map_append, List.mem_append, List.map_cons,
            List.mem_cons, List.mem_map]
          constructor
          · rintro (hs | hs)
            · exact Or.inl hs
            · exact Or.inr (Or.inr hs)
          · rintro (hs | hs | hs)
            · exact Or.inl hs
            · left
              refine ⟨o, ho, ?_⟩
              rw [hfin, ← hs]
            · exact Or.inr hs
        · intro x hx
          rcases hres.2.2.1 x hx with h2 | h2
          · exact Or.inl h2
          · exact Or.inr (List.mem_cons_of_mem c h2)

/-- C2: on a nonempty duplicate-free input, `all_orintations` returns between
1 and 24 orientations, and for every pair of distinct results the `similar`
check fails in both directions — no two results have equal coordinate sets. -/
theorem all_orintations_between_1_and_24 (o : Orintaion)
    (h : o.blocks ≠ []) (hd : o.blocks.Nodup) :
    1 ≤ o.all_orintations.length ∧ o.all_orintations.length ≤ 24 ∧
      o.all_orintations.Pairwise (fun a b =>
        a.similar b = false ∧ b.similar a = false ∧ oriFinset a ≠ oriFinset b) := by
  have hgood : ∀ c ∈ (words.map fun V => (mapRot V o).normalise), Good o.blocks.length c := by
    intro c hc
    obtain ⟨V, hV, rfl⟩ := List.mem_map.mp hc
    exact good_word_normalise h ⟨hd, rfl⟩ hV
  have hspec := foldl_addIfNew_spec (words.map fun V => (mapRot V o).normalise) []
      hgood (by simp) (by simp)
  rw [← all_orintations_eq_addIfNew o h] at hspec
  obtain ⟨hnd, hsets, hmem, _⟩ := hspec
  have hgoodres : ∀ x ∈ o.all_orintations, Good o.blocks.length x := by
    intro x hx
    rcases hmem x hx with h2 | h2
    · exact absurd h2 (List.not_mem_nil x)
    · exact hgood x h2
  have h1 : 1 ≤ o.all_orintations.length := by
    by_contra hlt
    push_neg at hlt
    have h0 : o.all_orintations = [] := List.eq_nil_of_length_eq_zero (by omega)
    rw [h0] at hsets
    simp only [List.map_nil, List.toFinset_nil, List.nil_append] at hsets
    have hone : Rot.one ∈ words := by
      rw [words_eq_wordsList]
      decide
    have hin : oriFinset ((mapRot Rot.one o).normalise) ∈
        ((words.map fun V => (mapRot V o).normalise).map oriFinset).toFinset := by
      rw [List.mem_toFinset]
      exact List.mem_map.mpr ⟨(mapRot Rot.one o).normalise,
        List.mem_map.mpr ⟨Rot.one, hone, rfl⟩, rfl⟩
    rw [← hsets] at hin
    exact absurd hin (Finset.not_mem_empty _)
  have hlen24 : o.all_orintations.length ≤ 24 := by
    have hcardeq : (o.all_orintations.map oriFinset).toFinset.card
        = o.all_orintations.length := by
      rw [List.toFinset_card_of_nodup hnd, List.length_map]
    rw [← hcardeq, hsets]
    simp only [List.nil_append]
    rw [List.map_map, toFinset_map_eq_image]
    have hle : (words.toFinset.image (oriFinset ∘ fun V => (mapRot V o).normalise)).card
        ≤ words.toFinset.card := Finset.card_image_le
    have h24 : words.toFinset.card = 24 := by
      rw [words_eq_wordsList]
      decide
    omega
  have hpw : o.all_orintations.Pairwise fun a b => oriFinset a ≠ oriFinset b :=
    List.pairwise_map.mp hnd
  refine ⟨h1, hlen24, ?_⟩
  refine List.Pairwise.imp_of_mem ?_ hpw
  intro a b ha hb hne
  have hga := hgoodres a ha
  have hgb := hgoodres b hb
  refine ⟨?_, ?_, hne⟩
  · rcases hab : a.similar b with _ | _
    · rfl
    · exact absurd ((similar_iff_finset_eq hga hgb).mp hab) hne
  · rcases hba : b.similar a with _ | _
    · rfl
    · exact absurd ((similar_iff_finset_eq hgb hga).mp hba).symm hne

theorem all_orintations_between_1_and_24_witness :
    1 ≤ unitCubeOri.all_orintations.length ∧
      unitCubeOri.all_orintations.length ≤ 24 ∧
      unitCubeOri.all_orintations.Pairwise (fun a b =>
        a.similar b = false ∧ b.similar a = false ∧ oriFinset a ≠ oriFinset b) :=
  all_orintations_between_1_and_24 unitCubeOri (by decide) (by decide)

theorem oriSets_all_orintations (o : Orintaion) (h : o.blocks ≠ []) (hd : o.blocks.Nodup) :
    oriSets o.all_orintations =
      words.toFinset.image fun V => oriFinset (mapRot V o).normalise := by
  have hgood : ∀ c ∈ (words.map fun V => (mapRot V o).normalise), Good o.blocks.length c := by
    intro c hc
    obtain ⟨V, hV, rfl⟩ := List.mem_map.mp hc
    exact good_word_normalise h ⟨hd, rfl⟩ hV
  have hspec := foldl_addIfNew_spec (words.map fun V => (mapRot V o).normalise) []
      hgood (by simp) (by simp)
  rw [← all_orintations_eq_addIfNew o h] at hspec
  rw [oriSets, hspec.2.1]
  simp only [List.nil_append]
  rw [List.map_map, toFinset_map_eq_image]
  rfl

theorem mem_all_orintations_shape (o : Orintaion) (h : o.blocks ≠ []) (hd : o.blocks.Nodup) :
    ∀ m ∈ o.all_orintations, ∃ V ∈ words, m = (mapRot V o).normalise := by
  have hgood : ∀ c ∈ (words.map fun V => (mapRot V o).normalise), Good o.blocks.length c := by
    intro c hc
    obtain ⟨V, hV, rfl⟩ := List.mem_map.mp hc
    exact good_word_normalise h ⟨hd, rfl⟩ hV
  have hspec := foldl_addIfNew_spec (words.map fun V => (mapRot V o).normalise) []
      hgood (by simp) (by simp)
  rw [← all_orintations_eq_addIfNew o h] at hspec
  intro m hm
  rcases hspec.2.2.1 m hm with h2 | h2
  · exact absurd h2 (List.not_mem_nil m)
  · obtain ⟨V, hV, hVm⟩ := List.mem_map.mp h2
    exact ⟨V, hV, hVm.symm⟩

theorem all_orintations_normalise (X : Orintaion) (h : X.blocks ≠ []) :
    X.normalise.all_orintations = X.all_orintations := by
  rw [all_orintations_eq_foldl, all_orintations_eq_foldl, normalise_normalise X h]

theorem words_mul_closed :
    ∀ S ∈ rotGroup, (words.map fun W => W.mul S).toFinset = words.toFinset := by
  rw [rotGroup, words_eq_wordsList]
  decide

theorem list_toFinset_dedup {α : Type} [DecidableEq α] (l : List α) :
    l.dedup.toFinset = l.toFinset := by
  apply Finset.ext
  intro a
  simp only [List.mem_toFinset, List.mem_dedup]

/-- C1: the visited rotation set `rotGroup` has all 24 proper cube rotations;
on a nonempty duplicate-free input the produced collection of coordinate
sets is exactly the normalised rotations of the shape under the whole group,
so it is unchanged when the traversal starts from any rotation of the shape,
in particular from any member of the returned list. -/
theorem all_orintations_rotation_independent (o : Orintaion)
    (h : o.blocks ≠ []) (hd : o.blocks.Nodup) :
    rotGroup.length = 24 ∧
    (∀ R ∈ rotGroup, R.isProperRotation) ∧
    (∀ R ∈ rotGroup,
        oriSets (mapRot R o).all_orintations = oriSets o.all_orintations) ∧
    oriSets o.all_orintations =
      (rotGroup.map fun R => oriFinset (mapRot R o).normalise).toFinset ∧
    (∀ m ∈ o.all_orintations, oriSets m.all_orintations = oriSets o.all_orintations) := by
  have hinv : ∀ R ∈ rotGroup,
      oriSets (mapRot R o).all_orintations = oriSets o.all_orintations := by
    intro R hR
    have hRw : R ∈ words := List.mem_dedup.mp hR
    obtain ⟨T, _, hT⟩ := words_left_inv R hRw
    have hinj := apply_inj_of_left_inv hT
    have hne : (mapRot R o).blocks ≠ [] := blocks_ne_nil_mapRot h R
    have hd2 : (mapRot R o).blocks.Nodup := (good_mapRot ⟨hd, rfl⟩ hinj).1
    rw [oriSets_all_orintations (mapRot R o) hne hd2, oriSets_all_orintations o h hd]
    have hfun : (fun V => oriFinset (mapRot V (mapRot R o)).normalise)
        = fun V => oriFinset (mapRot (V.mul R) o).normalise := by
      funext V
      rw [← mapRot_mul]
    rw [hfun]
    have himg : words.toFinset.image (fun V => oriFinset (mapRot (V.mul R) o).normalise)
        = ((words.map fun W => W.mul R).toFinset).image
            fun V => oriFinset (mapRot V o).normalise := by
      rw [toFinset_map_eq_image, Finset.image_image]
      rfl
    rw [himg, words_mul_closed R hR]
  refine ⟨?_, ?_, hinv, ?_, ?_⟩
  · rw [rotGroup, words_eq_wordsList]
    decide
  · rw [rotGroup, words_eq_wordsList]
    decide
  · rw [oriSets_all_orintations o h hd, toFinset_map_eq_image, rotGroup,
      list_toFinset_dedup]
  · intro m hm
    obtain ⟨V, hVw, rfl⟩ := mem_all_orintations_shape o h hd m hm
    have hV : V ∈ rotGroup := List.mem_dedup.mpr hVw
    rw [all_orintations_normalise _ (blocks_ne_nil_mapRot h V)]
    exact hinv V hV

theorem all_orintations_rotation_independent_witness :
    oriSets (mapRot (mat Direction.Clk) L3ori).all_orintations =
      oriSets L3ori.all_orintations :=
  (all_orintations_rotation_independent L3ori (by decide) (by decide)).2.2.1
    (mat Direction.Clk) (by rw [rotGroup, words_eq_wordsList]; decide)
